import Mathlib

/-!
Shallow embedding of the notebook-local glue code of the
`Hazboun6/ipta-2018-workshop` repository.

The repository consists of tutorial notebooks; all substantive numerical work
is delegated to external libraries.  The definitions below embed the
notebook-local Python fragments that the specification describes: chain
post-processing (burn-in, column lookup), the `readfile` stdout parsing loop,
the `np.savetxt`/`np.loadtxt` round trip for parameter-name files, the noise
JSON loading loop, the `.par`/`.tim` discovery and filtering, the notebook
cell ordering, the fake-pulsar sky-position computation, and the `Tspan`
computation.

Byte strings and file names are modelled as `List Char`; floating-point
values are modelled as exact rationals (`ℚ`), which is faithful for the
integer and dyadic arithmetic these claims are about; real-valued
trigonometry is modelled over `ℝ`.
-/

namespace Ipta2018

/-! ### Python string primitives used by several notebooks -/

/-- Python `s.split(sep)` for a single-character separator `sep`
(used as `out.split(b"\n")` and `res.split(b"=")`, and by `np.loadtxt`'s
line splitting).  Python returns `[""]` on the empty string and keeps
empty fields, and so does this function. -/
def pySplit (sep : Char) : List Char → List (List Char)
  | [] => [[]]
  | c :: cs =>
    if c = sep then [] :: pySplit sep cs
    else
      match pySplit sep cs with
      | [] => [[c]]
      | x :: xs => (c :: x) :: xs

/-- The whitespace characters stripped by Python's `bytes.strip()` /
`str.strip()` (space, tab, newline, vertical tab, form feed, carriage
return). -/
def isPySpace (c : Char) : Bool :=
  c = ' ' || c = '\t' || c = '\n' || c = '\x0b' || c = '\x0c' || c = '\r'

/-- Python `s.strip()`: remove leading and trailing whitespace. -/
def pyStrip (s : List Char) : List Char :=
  ((s.dropWhile isPySpace).reverse.dropWhile isPySpace).reverse

/-- Python substring containment `pat in s` for byte/character strings. -/
def containsSub (pat : List Char) : List Char → Bool
  | [] => pat.isEmpty
  | c :: cs => pat.isPrefixOf (c :: cs) || containsSub pat cs

/-- Lexicographic order on strings of characters, as used by Python's
`sorted` on the lists of file names returned by `glob.glob`. -/
def lexLe : List Char → List Char → Bool
  | [], _ => true
  | _ :: _, [] => false
  | a :: s, b :: t => if a < b then true else if b < a then false else lexLe s t

/-- Propositional form of `lexLe`. -/
def LexLe (s t : List Char) : Prop := lexLe s t = true

instance : DecidableRel LexLe :=
  fun s t => inferInstanceAs (Decidable (lexLe s t = true))

/-! ### Burn-in and chain slicing (`single_pulsar_noise.ipynb`,
`stochastic_gwb_analysis.ipynb`, `cw_exercises.ipynb`) -/

/-- Embeds `burn = int(0.25 * chain.shape[0])`.  The product `0.25 * r` is
exact in binary floating point (`0.25` is a power of two and realistic chain
lengths fit in the 53-bit mantissa), and `int` truncates the nonnegative
result toward zero, i.e. takes the floor. -/
def burnIndex (r : ℕ) : ℕ := (⌊(0.25 : ℚ) * (r : ℚ)⌋).toNat

/-- Embeds the slice `chain[burn:]` of a loaded chain, with one list entry
per sample row. -/
def postBurn (rows : List (List ℚ)) : List (List ℚ) :=
  rows.drop (burnIndex rows.length)

/-! ### Column lookup in a chain (`ind = list(pta.param_names).index(name)`) -/

/-- Embeds Python `list(names).index(name)`: the index of the first
occurrence of `name` (the notebooks call it with a name that is present). -/
def pyListIndex (names : List String) (name : String) : ℕ :=
  names.findIdx (fun s => s == name)

/-- A row of an MCMC chain file as described by the spec: the model-parameter
values in `pta.param_names` order, followed by the sampler's appended
log-likelihood, log-posterior and acceptance fields. -/
structure ChainRow where
  params : List ℚ
  extras : List ℚ

/-- The flat numeric row actually stored in `chain_1.txt`. -/
def flatRow (r : ChainRow) : List ℚ := r.params ++ r.extras

/-- Embeds the column slice `chain[burn:, ind]` of a loaded chain matrix. -/
def chainColumn (chain : List (List ℚ)) (burn ind : ℕ) : List ℚ :=
  (chain.drop burn).map (fun row => row.getD ind 0)

/-! ### The `readfile` stdout parsing loop
(`Faking_it_at_the_command_line.ipynb`) -/

/-- The test `b"Central freq" in res` of the parsing loop. -/
def hasCentralFreq (res : List Char) : Bool :=
  containsSub "Central freq".data res

/-- The spec's phrase for the extracted text: the text between the first
`'='` of the line and the following `'='` (or the end of the line).  This is
a second, spec-side definition, to be compared with the code's
`res.split(b"=")[1]`. -/
def specBetweenEq (res : List Char) : List Char :=
  ((res.dropWhile (fun c => c ≠ '=')).drop 1).takeWhile (fun c => c ≠ '=')

/-- Numeric value of a list of decimal digit characters. -/
def digitsToNat (ds : List Char) : ℕ :=
  ds.foldl (fun n c => 10 * n + (c.toNat - '0'.toNat)) 0

/-- Test that a character list is a nonempty run of decimal digits. -/
def isDigitRun (ds : List Char) : Bool :=
  !ds.isEmpty && ds.all (fun c => c.isDigit)

/-- Embeds Python `float(s)` on the plain nonnegative decimal numerals
(`"327.8"`, `"5"`, ...) produced by `readfile`; any other shape raises
`ValueError`, embedded as `none`.  The value is kept as an exact rational. -/
def parseDecimal (s : List Char) : Option ℚ :=
  match pySplit '.' s with
  | [intPart] =>
    if isDigitRun intPart then some ((digitsToNat intPart : ℚ)) else none
  | [intPart, fracPart] =>
    if isDigitRun intPart && fracPart.all (fun c => c.isDigit) then
      some ((digitsToNat intPart : ℚ) +
        (digitsToNat fracPart : ℚ) / (10 : ℚ) ^ fracPart.length)
    else none
  | _ => none

/-- Round to the nearest integer, ties to even: the rounding applied by
`printf`-style formatting of a (here exactly represented) float. -/
def roundHalfEven (x : ℚ) : ℤ :=
  if Int.fract x < 1 / 2 then ⌊x⌋
  else if 1 / 2 < Int.fract x then ⌊x⌋ + 1
  else if Even ⌊x⌋ then ⌊x⌋ else ⌊x⌋ + 1

/-- The ASCII character of a decimal digit (argument below 10). -/
def decDigit : ℕ → Char
  | 0 => '0'
  | 1 => '1'
  | 2 => '2'
  | 3 => '3'
  | 4 => '4'
  | 5 => '5'
  | 6 => '6'
  | 7 => '7'
  | 8 => '8'
  | _ => '9'

/-- Embeds `"%0.1f" % x` for a nonnegative value: round `10 * x` to the
nearest integer (ties to even) and print its tens as the integer part and
its last digit after the decimal point. -/
def fmt1 (q : ℚ) : List Char :=
  Nat.toDigits 10 ((roundHalfEven (q * 10)).toNat / 10) ++
    ['.', decDigit ((roundHalfEven (q * 10)).toNat % 10)]

/-- One iteration of the parsing loop body on one line `res`.
`none` embeds an uncaught exception (`IndexError` from `res.split(b"=")[1]`
on a line without `'='`, or `ValueError` from `float`); `some none` means the
line prints nothing; `some (some o)` means the line prints `o`. -/
def processLine (res : List Char) : Option (Option (List Char)) :=
  if hasCentralFreq res then
    match (pySplit '=' res).get? 1 with
    | none => none
    | some seg =>
      match parseDecimal (pyStrip seg) with
      | none => none
      | some q => some (some ("Frequency=".data ++ fmt1 q))
  else some none

/-- The parsing loop `for res in result: ...` over the split lines, returning
the list of printed lines (or `none` if an exception is raised). -/
def runFreqLoop : List (List Char) → Option (List (List Char))
  | [] => some []
  | res :: rest =>
    match processLine res with
    | none => none
    | some none => runFreqLoop rest
    | some (some o) => (runFreqLoop rest).map (fun os => o :: os)

/-- The whole cell `out, err = p.communicate(); ...` — the captured stderr is
bound but never read, so the printed output is computed from stdout alone. -/
def readfileCell (stdout _stderr : List Char) : Option (List (List Char)) :=
  runFreqLoop (pySplit '\n' stdout)

/-- Test that every printed line has exactly one character after its last
`'.'`, i.e. is formatted with exactly one decimal place. -/
def allOneDecimal (os : List (List Char)) : Bool :=
  os.all (fun o => (o.reverse.takeWhile (fun c => c ≠ '.')).length == 1)

/-! ### Parameter-name files: `np.savetxt(..., fmt='%s')` and
`np.loadtxt(..., dtype='str')` (`cw_exercises.ipynb`) -/

/-- Embeds `np.savetxt(filename, list(map(str, names)), fmt='%s')`: each name
on its own line, each line terminated by a newline. -/
def savetxtStrs (names : List (List Char)) : List Char :=
  names.foldr (fun n acc => n ++ '\n' :: acc) []

/-- The comment handling of `np.loadtxt`: everything from the first `'#'` of
a line on is discarded. -/
def stripComment (line : List Char) : List Char :=
  line.takeWhile (fun c => c ≠ '#')

/-- Helper for `wsTokens`: scan the line, accumulating the current token in
reverse in `cur` and emitting it at each whitespace boundary. -/
def wsTokensAux (cur : List Char) : List Char → List (List Char)
  | [] => if cur.isEmpty then [] else [cur.reverse]
  | c :: cs =>
    if isPySpace c then
      if cur.isEmpty then wsTokensAux [] cs
      else cur.reverse :: wsTokensAux [] cs
    else wsTokensAux (c :: cur) cs

/-- Splitting one line into whitespace-delimited tokens, as `np.loadtxt`
does with the default `delimiter=None`. -/
def wsTokens (s : List Char) : List (List Char) := wsTokensAux [] s

/-- Embeds `list(np.loadtxt(filename, dtype='str'))` on a single-column file:
per line, strip comments, then collect the whitespace-delimited tokens
(lines that are empty after comment stripping contribute nothing). -/
def loadtxtStrs (s : List Char) : List (List Char) :=
  (pySplit '\n' s).flatMap (fun line => wsTokens (stripComment line))

/-- The precondition of the round-trip claim, per name: non-empty and
containing no whitespace. -/
def goodSavetxtName (n : List Char) : Bool :=
  !n.isEmpty && n.all (fun c => !isPySpace c)

/-! ### Noise JSON loading loop (`stochastic_gwb_analysis.ipynb`) -/

/-- One step `params.update(json.load(fin))` of the loading loop: keys of the
newly loaded dictionary override the accumulated bindings.  A loaded JSON
dictionary is represented by its association list, `List.lookup` being the
dictionary lookup. -/
def dictUpdate (d : String → Option ℚ) (file : List (String × ℚ)) :
    String → Option ℚ :=
  fun k =>
    match file.lookup k with
    | some v => some v
    | none => d k

/-- The whole loading loop `params = {}; for nf in noisefiles: ...` over the
noise files in sorted filename order. -/
def loadNoiseParams (files : List (List (String × ℚ))) : String → Option ℚ :=
  files.foldl dictUpdate (fun _ => none)

/-- Spec-side description of the result: the value bound to `k` by the last
file (in the given order) that defines `k`, if any. -/
def lastNoiseValue (files : List (List (String × ℚ))) (k : String) :
    Option ℚ :=
  files.reverse.findSome? (fun file => file.lookup k)

/-! ### `.par`/`.tim` discovery and filtering (`stochastic_gwb_analysis.ipynb`) -/

/-- The pulsar-name stem used by the filter
`x.split('/')[-1].split('.')[0]`: the file's base name up to the first
`'.'`.  Directory entries are modelled by their base names; the fixed
`datadir` prefix common to all glob results does not affect their relative
lexicographic order. -/
def fileStem (f : List Char) : List Char := f.takeWhile (fun c => c ≠ '.')

/-- The files matched by `glob.glob(datadir + '/*.par')`. -/
def isParFile (f : List Char) : Bool := ".par".data.isSuffixOf f

/-- The files matched by `glob.glob(datadir + '/*.tim')`. -/
def isTimFile (f : List Char) : Bool := ".tim".data.isSuffixOf f

/-- Python `sorted` on file names: a stable sort by lexicographic order
(modelled by insertion sort, which is stable and produces the same sorted
list). -/
def pySortNames (files : List (List Char)) : List (List Char) :=
  List.insertionSort LexLe files

/-- Embeds `parfiles = sorted(glob.glob(datadir + '/*.par'))` followed by the
filter keeping the files whose stem is in `psrlist`. -/
def parfilesOf (files psrlist : List (List Char)) : List (List Char) :=
  (pySortNames (files.filter isParFile)).filter
    (fun x => decide (fileStem x ∈ psrlist))

/-- Embeds `timfiles = sorted(glob.glob(datadir + '/*.tim'))` followed by the
same filter. -/
def timfilesOf (files psrlist : List (List Char)) : List (List Char) :=
  (pySortNames (files.filter isTimFile)).filter
    (fun x => decide (fileStem x ∈ psrlist))

/-- Order on stems induced by the lexicographic order on file names: a
matched file is its stem followed by `'.'` and the rest of the name, and
comparing two such files with distinct stems only ever inspects the stems
and the first `'.'`. -/
def StemLe (s t : List Char) : Prop := lexLe (s ++ ['.']) (t ++ ['.']) = true

/-! ### Notebook cell ordering (`sampler.sample` before `np.loadtxt`) -/

/-- Abstraction of one code cell of an analysis notebook: the cells that run
the sampler (writing chain files into an output directory), the cells that
read a `chain_1.txt` back from a directory, and all other cells. -/
inductive NotebookCell where
  | sampleRun : String → NotebookCell
  | loadChain : String → NotebookCell
  | otherCell : NotebookCell
deriving DecidableEq

/-- Output directory of the first sampler of `single_pulsar_noise.ipynb`:
the cell writes `outdir = './chains/noise_run_' + str(psr.name) + '/'` (a
format call in the source); both sampler runs and both chain loads of that
notebook use this same `outdir` variable. -/
def noiseRunDir : String := "./chains/noise_run_<psr.name>/"

/-- Output directory used by `stochastic_gwb_analysis.ipynb`. -/
def crnDir : String := "./chains/dataset1_crn/"

/-- Output directory used by `cw_exercises.ipynb` (`chaindir = 'chains/'`). -/
def cwDir : String := "chains/"

/-- The code cells of `single_pulsar_noise.ipynb`, in top-to-bottom order:
ten setup cells, the first `sampler.sample` into `outdir`, the
`np.loadtxt(outdir + 'chain_1.txt')`, six post-processing and model-building
cells, the `enterprise_extensions` sampler setup, its `sampler.sample`, the
second `np.loadtxt(outdir + '/chain_1.txt')`, and a final plotting cell. -/
def singlePulsarNoiseCells : List NotebookCell :=
  List.replicate 10 NotebookCell.otherCell ++
    [NotebookCell.sampleRun noiseRunDir, NotebookCell.loadChain noiseRunDir] ++
    List.replicate 7 NotebookCell.otherCell ++
    [NotebookCell.sampleRun noiseRunDir, NotebookCell.loadChain noiseRunDir,
      NotebookCell.otherCell]

/-- The code cells of `stochastic_gwb_analysis.ipynb`, in top-to-bottom
order: eighteen setup cells, `sampler.sample` into
`./chains/dataset1_crn/`, the `np.loadtxt('./chains/dataset1_crn/chain_1.txt')`,
and four plotting/upper-limit cells. -/
def stochasticGwbCells : List NotebookCell :=
  List.replicate 18 NotebookCell.otherCell ++
    [NotebookCell.sampleRun crnDir, NotebookCell.loadChain crnDir] ++
    List.replicate 4 NotebookCell.otherCell

/-- The code cells of `cw_exercises.ipynb`, in top-to-bottom order:
twenty-one setup cells, `sampler.sample` into `chaindir = 'chains/'`, the
`np.loadtxt(chaindir + '/chain_1.txt')`, and seventeen further cells. -/
def cwExercisesCells : List NotebookCell :=
  List.replicate 21 NotebookCell.otherCell ++
    [NotebookCell.sampleRun cwDir, NotebookCell.loadChain cwDir] ++
    List.replicate 17 NotebookCell.otherCell

/-- Scan of a cell list that checks that every chain load is preceded by a
sampler run into the same directory; `seen` accumulates the directories
already written. -/
def readsAfterAux (seen : List String) : List NotebookCell → Bool
  | [] => true
  | NotebookCell.sampleRun d :: rest => readsAfterAux (d :: seen) rest
  | NotebookCell.loadChain d :: rest =>
    decide (d ∈ seen) && readsAfterAux seen rest
  | NotebookCell.otherCell :: rest => readsAfterAux seen rest

/-! ### Fake-pulsar sky position (`cw_exercises.ipynb`, `make_fake_pulsar`) -/

/-- Embeds `phi = 2*np.pi*u` of the sphere point picking. -/
noncomputable def phiOf (u : ℝ) : ℝ := 2 * Real.pi * u

/-- Embeds `theta = np.arccos(2*v-1) - np.pi/2` of the sphere point
picking. -/
noncomputable def thetaOf (v : ℝ) : ℝ := Real.arccos (2 * v - 1) - Real.pi / 2

/-! ### Maximum time span (`Tspan`) -/

/-- Minimum of a nonempty list of TOAs (`p.toas.min()`; `np.min` on an empty
array is an error and the notebooks never take one). -/
def listMin : List ℚ → ℚ
  | [] => 0
  | x :: xs => xs.foldl min x

/-- Maximum of a nonempty list of TOAs (`p.toas.max()`). -/
def listMax : List ℚ → ℚ
  | [] => 0
  | x :: xs => xs.foldl max x

/-- Embeds `tmin = [p.toas.min() for p in psrs]`, `tmax = [p.toas.max() for
p in psrs]`, `Tspan = np.max(tmax) - np.min(tmin)`; each pulsar is its list
of TOAs. -/
def tspanOf (psrs : List (List ℚ)) : ℚ :=
  listMax (psrs.map listMax) - listMin (psrs.map listMin)

/-! ## Theorems -/

theorem burnIndex_eq_div (r : ℕ) : burnIndex r = r / 4 := by
  have h : (0.25 : ℚ) * (r : ℚ) = (r : ℚ) / ((4 : ℕ) : ℚ) := by
    push_cast
    ring
  rw [burnIndex, h, Rat.floor_natCast_div_natCast]
  omega

/-- Claim C8: for a loaded chain with at least one row, the burn-in index
`int(0.25 * chain.shape[0])` equals `⌊r/4⌋` and lies strictly below the row
count, and the slice `chain[burn:]` is a nonempty suffix consisting of the
last `r - ⌊r/4⌋` rows. -/
theorem c8_burn_in_slice (rows : List (List ℚ)) (h : 1 ≤ rows.length) :
    burnIndex rows.length = rows.length / 4 ∧
    burnIndex rows.length < rows.length ∧
    postBurn rows ≠ [] ∧
    (postBurn rows).length = rows.length - rows.length / 4 ∧
    postBurn rows <:+ rows := by
  have hb := burnIndex_eq_div rows.length
  have hlt : rows.length / 4 < rows.length := Nat.div_lt_self (by omega) (by omega)
  refine ⟨hb, by omega, ?_, ?_, ?_⟩
  · have hlen : (postBurn rows).length = rows.length - burnIndex rows.length := by
      simp [postBurn]
    intro hnil
    rw [hnil] at hlen
    simp at hlen
    omega
  · simp [postBurn, hb]
  · exact List.drop_suffix _ _

theorem c8_burn_in_slice_witness :
    burnIndex ([[1], [2], [3], [4], [5]] : List (List ℚ)).length =
      ([[1], [2], [3], [4], [5]] : List (List ℚ)).length / 4 ∧
    burnIndex ([[1], [2], [3], [4], [5]] : List (List ℚ)).length <
      ([[1], [2], [3], [4], [5]] : List (List ℚ)).length ∧
    postBurn ([[1], [2], [3], [4], [5]] : List (List ℚ)) ≠ [] ∧
    (postBurn ([[1], [2], [3], [4], [5]] : List (List ℚ))).length =
      ([[1], [2], [3], [4], [5]] : List (List ℚ)).length -
        ([[1], [2], [3], [4], [5]] : List (List ℚ)).length / 4 ∧
    postBurn ([[1], [2], [3], [4], [5]] : List (List ℚ)) <:+
      ([[1], [2], [3], [4], [5]] : List (List ℚ)) :=
  c8_burn_in_slice [[1], [2], [3], [4], [5]] (by decide)

/-- Claim C9: for uniform draws `u, v ∈ [0,1]`, `make_fake_pulsar` computes a
legal sky position: `phi = 2*pi*u ∈ [0, 2*pi]` and
`theta = arccos(2*v-1) - pi/2 ∈ [-pi/2, pi/2]`. -/
theorem c9_sky_position_ranges (u v : ℝ) (hu0 : 0 ≤ u) (hu1 : u ≤ 1)
    (hv0 : 0 ≤ v) (hv1 : v ≤ 1) :
    0 ≤ phiOf u ∧ phiOf u ≤ 2 * Real.pi ∧
    -(Real.pi / 2) ≤ thetaOf v ∧ thetaOf v ≤ Real.pi / 2 := by
  have hpi := Real.pi_pos
  have harc0 := Real.arccos_nonneg (2 * v - 1)
  have harc1 := Real.arccos_le_pi (2 * v - 1)
  refine ⟨?_, ?_, ?_, ?_⟩
  · exact mul_nonneg (by positivity) hu0
  · calc 2 * Real.pi * u ≤ 2 * Real.pi * 1 := by nlinarith
      _ = 2 * Real.pi := mul_one _
  · unfold thetaOf
    linarith
  · unfold thetaOf
    linarith

theorem c9_sky_position_ranges_witness :
    0 ≤ phiOf 0 ∧ phiOf 0 ≤ 2 * Real.pi ∧
    -(Real.pi / 2) ≤ thetaOf 0 ∧ thetaOf 0 ≤ Real.pi / 2 :=
  c9_sky_position_ranges 0 0 le_rfl zero_le_one le_rfl zero_le_one

theorem foldl_min_le_init (l : List ℚ) (a : ℚ) : l.foldl min a ≤ a := by
  induction l generalizing a with
  | nil => exact le_rfl
  | cons x xs ih => exact le_trans (ih (min a x)) (min_le_left a x)

theorem foldl_min_le_mem (l : List ℚ) (a x : ℚ) (hx : x ∈ l) :
    l.foldl min a ≤ x := by
  induction l generalizing a with
  | nil => cases hx
  | cons y ys ih =>
    rcases List.mem_cons.mp hx with rfl | hmem
    · exact le_trans (foldl_min_le_init ys (min a x)) (min_le_right a x)
    · exact ih (min a y) hmem

theorem foldl_min_choice (l : List ℚ) (a : ℚ) :
    l.foldl min a = a ∨ l.foldl min a ∈ l := by
  induction l generalizing a with
  | nil => exact Or.inl rfl
  | cons x xs ih =>
    rcases ih (min a x) with h | h
    · rcases min_cases a x with ⟨hmin, _⟩ | ⟨hmin, _⟩
      · rw [List.foldl_cons, h, hmin]
        exact Or.inl rfl
      · rw [List.foldl_cons, h, hmin]
        exact Or.inr (List.mem_cons_self x xs)
    · exact Or.inr (List.mem_cons_of_mem x h)

theorem foldl_min_comm (l : List ℚ) (a b : ℚ) :
    l.foldl min (min a b) = min a (l.foldl min b) := by
  induction l generalizing b with
  | nil => rfl
  | cons x xs ih =>
    rw [List.foldl_cons, List.foldl_cons, min_assoc, ih (min b x)]

theorem foldl_max_init_le (l : List ℚ) (a : ℚ) : a ≤ l.foldl max a := by
  induction l generalizing a with
  | nil => exact le_rfl
  | cons x xs ih => exact le_trans (le_max_left a x) (ih (max a x))

theorem foldl_max_mem_le (l : List ℚ) (a x : ℚ) (hx : x ∈ l) :
    x ≤ l.foldl max a := by
  induction l generalizing a with
  | nil => cases hx
  | cons y ys ih =>
    rcases List.mem_cons.mp hx with rfl | hmem
    · exact le_trans (le_max_right a x) (foldl_max_init_le ys (max a x))
    · exact ih (max a y) hmem

theorem foldl_max_choice (l : List ℚ) (a : ℚ) :
    l.foldl max a = a ∨ l.foldl max a ∈ l := by
  induction l generalizing a with
  | nil => exact Or.inl rfl
  | cons x xs ih =>
    rcases ih (max a x) with h | h
    · rcases max_cases a x with ⟨hmax, _⟩ | ⟨hmax, _⟩
      · rw [List.foldl_cons, h, hmax]
        exact Or.inl rfl
      · rw [List.foldl_cons, h, hmax]
        exact Or.inr (List.mem_cons_self x xs)
    · exact Or.inr (List.mem_cons_of_mem x h)

theorem foldl_max_comm (l : List ℚ) (a b : ℚ) :
    l.foldl max (max a b) = max a (l.foldl max b) := by
  induction l generalizing b with
  | nil => rfl
  | cons x xs ih =>
    rw [List.foldl_cons, List.foldl_cons, max_assoc, ih (max b x)]

theorem listMin_le_mem (l : List ℚ) (x : ℚ) (hx : x ∈ l) : listMin l ≤ x := by
  cases l with
  | nil => cases hx
  | cons y ys =>
    rcases List.mem_cons.mp hx with rfl | hmem
    · exact foldl_min_le_init ys x
    · exact foldl_min_le_mem ys y x hmem

theorem listMax_mem_le (l : List ℚ) (x : ℚ) (hx : x ∈ l) : x ≤ listMax l := by
  cases l with
  | nil => cases hx
  | cons y ys =>
    rcases List.mem_cons.mp hx with rfl | hmem
    · exact foldl_max_init_le ys x
    · exact foldl_max_mem_le ys y x hmem

theorem listMin_mem (l : List ℚ) (h : l ≠ []) : listMin l ∈ l := by
  cases l with
  | nil => exact absurd rfl h
  | cons y ys =>
    rcases foldl_min_choice ys y with hc | hc
    · rw [listMin, hc]
      exact List.mem_cons_self y ys
    · exact List.mem_cons_of_mem y hc

theorem listMax_mem (l : List ℚ) (h : l ≠ []) : listMax l ∈ l := by
  cases l with
  | nil => exact absurd rfl h
  | cons y ys =>
    rcases foldl_max_choice ys y with hc | hc
    · rw [listMax, hc]
      exact List.mem_cons_self y ys
    · exact List.mem_cons_of_mem y hc

theorem listMin_cons (x : ℚ) (l : List ℚ) (h : l ≠ []) :
    listMin (x :: l) = min x (listMin l) := by
  cases l with
  | nil => exact absurd rfl h
  | cons y ys =>
    show (y :: ys).foldl min x = min x (ys.foldl min y)
    rw [List.foldl_cons, foldl_min_comm]

theorem listMax_cons (x : ℚ) (l : List ℚ) (h : l ≠ []) :
    listMax (x :: l) = max x (listMax l) := by
  cases l with
  | nil => exact absurd rfl h
  | cons y ys =>
    show (y :: ys).foldl max x = max x (ys.foldl max y)
    rw [List.foldl_cons, foldl_max_comm]

theorem listMin_append (l₁ l₂ : List ℚ) (h₁ : l₁ ≠ []) (h₂ : l₂ ≠ []) :
    listMin (l₁ ++ l₂) = min (listMin l₁) (listMin l₂) := by
  cases l₁ with
  | nil => exact absurd rfl h₁
  | cons x xs =>
    cases l₂ with
    | nil => exact absurd rfl h₂
    | cons y ys =>
      show ((xs ++ y :: ys).foldl min x) = _
      rw [List.foldl_append, List.foldl_cons, foldl_min_comm]
      rfl

theorem listMax_append (l₁ l₂ : List ℚ) (h₁ : l₁ ≠ []) (h₂ : l₂ ≠ []) :
    listMax (l₁ ++ l₂) = max (listMax l₁) (listMax l₂) := by
  cases l₁ with
  | nil => exact absurd rfl h₁
  | cons x xs =>
    cases l₂ with
    | nil => exact absurd rfl h₂
    | cons y ys =>
      show ((xs ++ y :: ys).foldl max x) = _
      rw [List.foldl_append, List.foldl_cons, foldl_max_comm]
      rfl

theorem flatten_ne_nil (psrs : List (List ℚ)) (h1 : psrs ≠ [])
    (h2 : ∀ p ∈ psrs, p ≠ []) : psrs.flatten ≠ [] := by
  cases psrs with
  | nil => exact absurd rfl h1
  | cons p ps =>
    have hp := h2 p (List.mem_cons_self p ps)
    cases p with
    | nil => exact absurd rfl hp
    | cons x xs => simp [List.flatten]

theorem listMax_map_flatten (psrs : List (List ℚ)) (h1 : psrs ≠ [])
    (h2 : ∀ p ∈ psrs, p ≠ []) :
    listMax (psrs.map listMax) = listMax psrs.flatten := by
  induction psrs with
  | nil => exact absurd rfl h1
  | cons p ps ih =>
    have hp := h2 p (List.mem_cons_self p ps)
    by_cases hps' : ps = []
    · subst hps'
      simp only [List.map_cons, List.map_nil, List.flatten_cons, List.flatten_nil,
        List.append_nil]
      rfl
    · have hmap : ps.map listMax ≠ [] := by
        intro hc
        exact hps' (List.map_eq_nil_iff.mp hc)
      have hflat : ps.flatten ≠ [] :=
        flatten_ne_nil ps hps' (fun r hr => h2 r (List.mem_cons_of_mem p hr))
      rw [List.map_cons, List.flatten_cons,
        listMax_cons (listMax p) (ps.map listMax) hmap,
        listMax_append p ps.flatten hp hflat,
        ih hps' (fun r hr => h2 r (List.mem_cons_of_mem p hr))]

theorem listMin_map_flatten (psrs : List (List ℚ)) (h1 : psrs ≠ [])
    (h2 : ∀ p ∈ psrs, p ≠ []) :
    listMin (psrs.map listMin) = listMin psrs.flatten := by
  induction psrs with
  | nil => exact absurd rfl h1
  | cons p ps ih =>
    have hp := h2 p (List.mem_cons_self p ps)
    by_cases hps' : ps = []
    · subst hps'
      simp only [List.map_cons, List.map_nil, List.flatten_cons, List.flatten_nil,
        List.append_nil]
      rfl
    · have hmap : ps.map listMin ≠ [] := by
        intro hc
        exact hps' (List.map_eq_nil_iff.mp hc)
      have hflat : ps.flatten ≠ [] :=
        flatten_ne_nil ps hps' (fun r hr => h2 r (List.mem_cons_of_mem p hr))
      rw [List.map_cons, List.flatten_cons,
        listMin_cons (listMin p) (ps.map listMin) hmap,
        listMin_append p ps.flatten hp hflat,
        ih hps' (fun r hr => h2 r (List.mem_cons_of_mem p hr))]

/-- Claim C10: for a nonempty collection of pulsars with nonempty TOA
arrays, `Tspan = np.max(tmax) - np.min(tmin)` equals the global maximum TOA
minus the global minimum TOA, is nonnegative, and dominates each pulsar's
own span. -/
theorem c10_tspan_global (psrs : List (List ℚ)) (h1 : psrs ≠ [])
    (h2 : ∀ p ∈ psrs, p ≠ []) :
    tspanOf psrs = listMax psrs.flatten - listMin psrs.flatten ∧
    0 ≤ tspanOf psrs ∧
    ∀ p ∈ psrs, listMax p - listMin p ≤ tspanOf psrs := by
  have hmax := listMax_map_flatten psrs h1 h2
  have hmin := listMin_map_flatten psrs h1 h2
  have heq : tspanOf psrs = listMax psrs.flatten - listMin psrs.flatten := by
    rw [tspanOf, hmax, hmin]
  have hflat : psrs.flatten ≠ [] := flatten_ne_nil psrs h1 h2
  have hle : listMin psrs.flatten ≤ listMax psrs.flatten :=
    listMax_mem_le psrs.flatten (listMin psrs.flatten) (listMin_mem _ hflat)
  refine ⟨heq, by rw [heq]; linarith, ?_⟩
  intro p hp
  have hp' := h2 p hp
  have hsubmax : listMax p ≤ listMax psrs.flatten :=
    listMax_mem_le psrs.flatten (listMax p)
      (List.mem_flatten.mpr ⟨p, hp, listMax_mem p hp'⟩)
  have hsubmin : listMin psrs.flatten ≤ listMin p :=
    listMin_le_mem psrs.flatten (listMin p)
      (List.mem_flatten.mpr ⟨p, hp, listMin_mem p hp'⟩)
  rw [heq]
  linarith

theorem c10_tspan_global_witness :
    tspanOf [[3, 1], [7, 2]] =
      listMax ([[3, 1], [7, 2]] : List (List ℚ)).flatten -
        listMin ([[3, 1], [7, 2]] : List (List ℚ)).flatten ∧
    0 ≤ tspanOf [[3, 1], [7, 2]] ∧
    ∀ p ∈ ([[3, 1], [7, 2]] : List (List ℚ)),
      listMax p - listMin p ≤ tspanOf [[3, 1], [7, 2]] :=
  c10_tspan_global [[3, 1], [7, 2]] (by decide) (by decide)

theorem dictUpdate_eq_or (d : String → Option ℚ) (file : List (String × ℚ))
    (k : String) : dictUpdate d file k = (file.lookup k).or (d k) := by
  unfold dictUpdate
  cases file.lookup k <;> rfl

theorem foldl_dictUpdate_eq (files : List (List (String × ℚ)))
    (d : String → Option ℚ) (k : String) :
    (files.foldl dictUpdate d) k =
      (files.reverse.findSome? (fun file => file.lookup k)).or (d k) := by
  induction files generalizing d with
  | nil => rfl
  | cons f fs ih =>
    rw [List.foldl_cons, ih (dictUpdate d f), List.reverse_cons,
      List.findSome?_append, dictUpdate_eq_or, Option.or_assoc]
    congr 1
    cases h : List.lookup k f <;> simp [List.findSome?_cons, h]

/-- Claim C5: after the noise-file loading loop, `params` contains exactly
the keys appearing in some noise file (in the sorted file order the loop
uses), and a key defined in several files is bound to the value from the
last file defining it. -/
theorem c5_noise_params_last_wins (files : List (List (String × ℚ)))
    (k : String) :
    loadNoiseParams files k = lastNoiseValue files k ∧
    ((loadNoiseParams files k).isSome ↔
      ∃ file ∈ files, (file.lookup k).isSome) := by
  have h : loadNoiseParams files k = lastNoiseValue files k := by
    rw [loadNoiseParams, foldl_dictUpdate_eq, Option.or_none, lastNoiseValue]
  refine ⟨h, ?_⟩
  rw [h, lastNoiseValue]
  constructor
  · intro hs
    rcases Option.isSome_iff_exists.mp hs with ⟨v, hv⟩
    rcases List.exists_of_findSome?_eq_some hv with ⟨file, hmem, hlook⟩
    exact ⟨file, List.mem_reverse.mp hmem, by rw [hlook]; rfl⟩
  · intro ⟨file, hmem, hlook⟩
    by_contra hnone
    rw [Option.not_isSome_iff_eq_none, List.findSome?_eq_none_iff] at hnone
    have := hnone file (List.mem_reverse.mpr hmem)
    rw [this] at hlook
    cases hlook

theorem pyListIndex_lt (names : List String) (name : String)
    (hmem : name ∈ names) : pyListIndex names name < names.length :=
  List.findIdx_lt_length_of_exists ⟨name, hmem, beq_self_eq_true name⟩

theorem pyListIndex_get (names : List String) (name : String)
    (hmem : name ∈ names) :
    names.get ⟨pyListIndex names name, pyListIndex_lt names name hmem⟩ =
      name := by
  have h := List.findIdx_get (w := pyListIndex_lt names name hmem)
  exact eq_of_beq h

/-- Claim C1: for a chain whose rows are the model parameters in
`pta.param_names` order followed by the sampler's appended fields,
`ind = list(pta.param_names).index(name)` is the unique position of `name`
in the parameter-name list, and the slice `chain[burn:, ind]` is exactly the
post-burn-in sequence of that parameter's values. -/
theorem c1_chain_column_lookup (names : List String) (name : String)
    (hmem : name ∈ names) (hnd : names.Nodup) (rows : List ChainRow)
    (hlen : ∀ r ∈ rows, r.params.length = names.length) (burn : ℕ) :
    ∃ h : pyListIndex names name < names.length,
      names.get ⟨pyListIndex names name, h⟩ = name ∧
      (∀ j (hj : j < names.length),
        names.get ⟨j, hj⟩ = name → j = pyListIndex names name) ∧
      chainColumn (rows.map flatRow) burn (pyListIndex names name) =
        (rows.drop burn).map
          (fun r => r.params.getD (pyListIndex names name) 0) := by
  refine ⟨pyListIndex_lt names name hmem, pyListIndex_get names name hmem, ?_, ?_⟩
  · intro j hj hget
    have hgi := pyListIndex_get names name hmem
    have : names.get ⟨j, hj⟩ =
        names.get ⟨pyListIndex names name, pyListIndex_lt names name hmem⟩ := by
      rw [hget, hgi]
    simpa using (List.Nodup.getElem_inj_iff hnd).mp (by simpa using this)
  · rw [chainColumn, ← List.map_drop, List.map_map]
    apply List.map_congr_left
    intro r hr
    have hrlen : r.params.length = names.length :=
      hlen r (List.mem_of_mem_drop hr)
    have hind : pyListIndex names name < r.params.length := by
      rw [hrlen]
      exact pyListIndex_lt names name hmem
    show (flatRow r).getD (pyListIndex names name) 0 = _
    rw [flatRow, List.getD_append _ _ _ _ hind]

theorem c1_chain_column_lookup_witness :
    ∃ h : pyListIndex ["J0613_efac", "J0613_log10_A"] "J0613_log10_A" <
        (["J0613_efac", "J0613_log10_A"] : List String).length,
      (["J0613_efac", "J0613_log10_A"] : List String).get
          ⟨pyListIndex ["J0613_efac", "J0613_log10_A"] "J0613_log10_A", h⟩ =
        "J0613_log10_A" ∧
      (∀ j (hj : j < (["J0613_efac", "J0613_log10_A"] : List String).length),
        (["J0613_efac", "J0613_log10_A"] : List String).get ⟨j, hj⟩ =
            "J0613_log10_A" →
          j = pyListIndex ["J0613_efac", "J0613_log10_A"] "J0613_log10_A") ∧
      chainColumn ([⟨[1, 2], [3, 4, 5]⟩].map flatRow) 0
          (pyListIndex ["J0613_efac", "J0613_log10_A"] "J0613_log10_A") =
        (([⟨[1, 2], [3, 4, 5]⟩] : List ChainRow).drop 0).map
          (fun r => r.params.getD
            (pyListIndex ["J0613_efac", "J0613_log10_A"] "J0613_log10_A") 0) :=
  c1_chain_column_lookup ["J0613_efac", "J0613_log10_A"] "J0613_log10_A"
    (by decide) (by decide) [⟨[1, 2], [3, 4, 5]⟩] (by decide) 0

/-- Claim C3: the printed output of the `readfile` cell is a function of the
subprocess's stdout alone; two executions agreeing on stdout but with
arbitrary different stderr print identically, since `err` is never read
after `p.communicate()`. -/
theorem c3_stderr_noninterference (out err₁ err₂ : List Char) :
    readfileCell out err₁ = readfileCell out err₂ := rfl

theorem pySplit_head (sep : Char) (s : List Char) :
    ∃ xs, pySplit sep s = (s.takeWhile (fun c => c ≠ sep)) :: xs := by
  induction s with
  | nil => exact ⟨[], rfl⟩
  | cons c cs ih =>
    by_cases h : c = sep
    · refine ⟨pySplit sep cs, ?_⟩
      simp [pySplit, h, List.takeWhile_cons]
    · obtain ⟨xs, hxs⟩ := ih
      refine ⟨xs, ?_⟩
      simp [pySplit, h, hxs, List.takeWhile_cons]

theorem pySplit_get_one (res : List Char) (h : '=' ∈ res) :
    (pySplit '=' res).get? 1 = some (specBetweenEq res) := by
  induction res with
  | nil => cases h
  | cons c cs ih =>
    by_cases hc : c = '='
    · subst hc
      obtain ⟨xs, hxs⟩ := pySplit_head '=' cs
      have hsplit : pySplit '=' ('=' :: cs) = [] :: pySplit '=' cs := by
        simp [pySplit]
      rw [hsplit, List.get?_cons_succ, hxs, List.get?_cons_zero]
      have hspec : specBetweenEq ('=' :: cs) =
          cs.takeWhile (fun c => c ≠ '=') := by
        simp [specBetweenEq, List.dropWhile_cons]
      rw [hspec]
    · have hmem : '=' ∈ cs := by
        rcases List.mem_cons.mp h with heq | hmem
        · exact absurd heq.symm hc
        · exact hmem
      obtain ⟨xs, hxs⟩ := pySplit_head '=' cs
      have hsplit : pySplit '=' (c :: cs) =
          (c :: cs.takeWhile (fun c => c ≠ '=')) :: xs := by
        simp [pySplit, hc, hxs]
      have hspec : specBetweenEq (c :: cs) = specBetweenEq cs := by
        simp [specBetweenEq, List.dropWhile_cons, hc]
      rw [hsplit, List.get?_cons_succ, hspec, ← ih hmem, hxs,
        List.get?_cons_succ]

theorem decDigit_ne_dot (n : ℕ) : decDigit n ≠ '.' := by
  rcases n with _ | _ | _ | _ | _ | _ | _ | _ | _ | n
  case succ.succ.succ.succ.succ.succ.succ.succ.succ =>
    change ('9' : Char) ≠ '.'
    decide
  all_goals decide

theorem one_decimal_place (pre A : List Char) (d : Char) (hd : d ≠ '.') :
    (((pre ++ (A ++ ['.', d])).reverse).takeWhile
      (fun c => c ≠ '.')).length = 1 := by
  rw [← List.append_assoc, List.reverse_append]
  show ((d :: '.' :: (pre ++ A).reverse).takeWhile (fun c => c ≠ '.')).length = 1
  simp [List.takeWhile_cons, hd]

theorem processLine_skip (res : List Char) (h : hasCentralFreq res = false) :
    processLine res = some none := by
  simp [processLine, h]

theorem processLine_print (res : List Char) (hcf : hasCentralFreq res = true)
    (heq : '=' ∈ res) (q : ℚ)
    (hq : parseDecimal (pyStrip (specBetweenEq res)) = some q) :
    processLine res = some (some ("Frequency=".data ++ fmt1 q)) := by
  rw [processLine, if_pos hcf, pySplit_get_one res heq]
  show (match parseDecimal (pyStrip (specBetweenEq res)) with
    | none => none
    | some q => some (some ("Frequency=".data ++ fmt1 q))) = _
  rw [hq]

theorem runFreqLoop_spec (lines : List (List Char))
    (H : ∀ res ∈ lines, hasCentralFreq res = true →
      '=' ∈ res ∧ (parseDecimal (pyStrip (specBetweenEq res))).isSome = true) :
    runFreqLoop lines = some ((lines.filter hasCentralFreq).map
      (fun res => "Frequency=".data ++
        fmt1 ((parseDecimal (pyStrip (specBetweenEq res))).getD 0))) := by
  induction lines with
  | nil => rfl
  | cons res rest ih =>
    have ihr := ih (fun r hr hcf => H r (List.mem_cons_of_mem res hr) hcf)
    by_cases hcf : hasCentralFreq res = true
    · obtain ⟨heq, hsome⟩ := H res (List.mem_cons_self res rest) hcf
      obtain ⟨q, hq⟩ := Option.isSome_iff_exists.mp hsome
      rw [runFreqLoop, processLine_print res hcf heq q hq]
      show (runFreqLoop rest).map _ = _
      rw [ihr, List.filter_cons, if_pos hcf]
      simp [hq]
    · rw [runFreqLoop, processLine_skip res (by simpa using hcf)]
      show runFreqLoop rest = _
      rw [ihr, List.filter_cons, if_neg hcf]

/-- Claim C2: the parsing loop of the `readfile` cell splits stdout on
newlines, prints for exactly the lines containing `"Central freq"`, and for
each such line prints `"Frequency="` followed by the parsed value of the
stripped text between the first `'='` and the following `'='` (or end of
line), formatted with exactly one decimal place.  The hypothesis states that
each matching line has an `'='` and that the extracted text is a decimal
numeral (otherwise the Python cell raises instead of printing). -/
theorem c2_readfile_parsing (stdout : List Char)
    (H : ∀ res ∈ pySplit '\n' stdout, hasCentralFreq res = true →
      '=' ∈ res ∧ (parseDecimal (pyStrip (specBetweenEq res))).isSome = true) :
    runFreqLoop (pySplit '\n' stdout) =
      some (((pySplit '\n' stdout).filter hasCentralFreq).map
        (fun res => "Frequency=".data ++
          fmt1 ((parseDecimal (pyStrip (specBetweenEq res))).getD 0))) ∧
    allOneDecimal ((runFreqLoop (pySplit '\n' stdout)).getD []) = true := by
  have hrun := runFreqLoop_spec (pySplit '\n' stdout) H
  refine ⟨hrun, ?_⟩
  rw [hrun]
  show allOneDecimal _ = true
  rw [allOneDecimal, List.all_eq_true]
  intro o ho
  rcases List.mem_map.mp ho with ⟨res, _, rfl⟩
  have h1 := one_decimal_place "Frequency=".data
    (Nat.toDigits 10
      ((roundHalfEven ((parseDecimal (pyStrip (specBetweenEq res))).getD 0 *
        10)).toNat / 10))
    (decDigit ((roundHalfEven
      ((parseDecimal (pyStrip (specBetweenEq res))).getD 0 * 10)).toNat % 10))
    (decDigit_ne_dot _)
  simpa [fmt1] using h1

theorem c2_readfile_parsing_witness :
    runFreqLoop (pySplit '\n'
        "Central freq (MHz) = 327.8\nTelescope = Arecibo".data) =
      some (((pySplit '\n'
          "Central freq (MHz) = 327.8\nTelescope = Arecibo".data).filter
            hasCentralFreq).map
        (fun res => "Frequency=".data ++
          fmt1 ((parseDecimal (pyStrip (specBetweenEq res))).getD 0))) ∧
    allOneDecimal ((runFreqLoop (pySplit '\n'
        "Central freq (MHz) = 327.8\nTelescope = Arecibo".data)).getD []) =
      true :=
  c2_readfile_parsing "Central freq (MHz) = 327.8\nTelescope = Arecibo".data
    (by decide)

theorem pySplit_newline_append (n rest : List Char) (h : '\n' ∉ n) :
    pySplit '\n' (n ++ '\n' :: rest) = n :: pySplit '\n' rest := by
  induction n with
  | nil => simp [pySplit]
  | cons c n' ih =>
    have hc : ¬ c = '\n' := fun hh => h (hh ▸ List.mem_cons_self c n')
    have ih' := ih (fun hm => h (List.mem_cons_of_mem c hm))
    simp only [List.cons_append, pySplit, if_neg hc, List.append_eq, ih']

theorem wsTokensAux_nonspace (s : List Char)
    (hns : ∀ c ∈ s, isPySpace c = false) :
    ∀ cur : List Char, wsTokensAux cur s =
      if cur.reverse ++ s = [] then [] else [cur.reverse ++ s] := by
  induction s with
  | nil =>
    intro cur
    simp only [wsTokensAux, List.append_nil]
    cases cur with
    | nil => rfl
    | cons x xs => simp
  | cons c cs ih =>
    intro cur
    have hc : isPySpace c = false := hns c (List.mem_cons_self c cs)
    have ih' := ih (fun d hd => hns d (List.mem_cons_of_mem c hd))
    simp only [wsTokensAux, hc, Bool.false_eq_true, if_false]
    rw [ih' (c :: cur)]
    simp [List.reverse_cons, List.append_assoc]

theorem wsTokens_single (n : List Char) (hne : n ≠ [])
    (hns : ∀ c ∈ n, isPySpace c = false) : wsTokens n = [n] := by
  rw [wsTokens, wsTokensAux_nonspace n hns []]
  simp [hne]

/-- Counterexample to claim C4 as stated: the single name `"#x"` is
non-empty and contains no whitespace, yet the `np.savetxt`/`np.loadtxt`
round trip loses it, because `np.loadtxt` treats everything from a `'#'` on
as a comment. -/
theorem c4_roundtrip_counterexample :
    (∀ n ∈ [['#', 'x']], goodSavetxtName n = true) ∧
    loadtxtStrs (savetxtStrs [['#', 'x']]) ≠ [['#', 'x']] := by decide

/-- Claim C4, amended: the write/read round trip restores the names exactly
when each name is non-empty, contains no whitespace, and contains no `'#'`
(the `np.loadtxt` comment character, which the claim as stated
overlooks). -/
theorem c4_savetxt_loadtxt_roundtrip (names : List (List Char))
    (h : ∀ n ∈ names, goodSavetxtName n = true ∧ '#' ∉ n) :
    loadtxtStrs (savetxtStrs names) = names := by
  induction names with
  | nil => rfl
  | cons n ns ih =>
    obtain ⟨hgood, hhash⟩ := h n (List.mem_cons_self n ns)
    rw [goodSavetxtName, Bool.and_eq_true] at hgood
    obtain ⟨hne', hall⟩ := hgood
    have hne : n ≠ [] := by
      intro hc
      rw [hc] at hne'
      cases hne'
    have hns : ∀ c ∈ n, isPySpace c = false := by
      intro c hc
      have := List.all_eq_true.mp hall c hc
      revert this
      cases hpc : isPySpace c <;> simp
    have hnl : '\n' ∉ n := by
      intro hm
      have := hns '\n' hm
      simp [isPySpace] at this
    have hsave : savetxtStrs (n :: ns) = n ++ '\n' :: savetxtStrs ns := rfl
    have hcomment : stripComment n = n :=
      List.takeWhile_eq_self_iff.mpr
        (fun c hc => by
          simp only [decide_eq_true_eq]
          intro hcc
          exact hhash (hcc ▸ hc))
    rw [loadtxtStrs, hsave, pySplit_newline_append n (savetxtStrs ns) hnl,
      List.flatMap_cons, hcomment, wsTokens_single n hne hns]
    have htail := ih (fun m hm => h m (List.mem_cons_of_mem n hm))
    rw [loadtxtStrs] at htail
    rw [htail]
    rfl

theorem c4_savetxt_loadtxt_roundtrip_witness :
    loadtxtStrs (savetxtStrs [['J', '1', '2'], ['e', 'f', 'a', 'c']]) =
      [['J', '1', '2'], ['e', 'f', 'a', 'c']] :=
  c4_savetxt_loadtxt_roundtrip [['J', '1', '2'], ['e', 'f', 'a', 'c']]
    (by decide)

theorem readsAfterAux_sound (cells : List NotebookCell) :
    ∀ seen, readsAfterAux seen cells = true →
      ∀ i d, cells.get? i = some (NotebookCell.loadChain d) →
        d ∈ seen ∨
          ∃ j, j < i ∧ cells.get? j = some (NotebookCell.sampleRun d) := by
  induction cells with
  | nil =>
    intro seen _ i d hget
    rw [List.get?_nil] at hget
    cases hget
  | cons c rest ih =>
    intro seen h i d hget
    cases c with
    | sampleRun e =>
      have h' : readsAfterAux (e :: seen) rest = true := h
      cases i with
      | zero =>
        rw [List.get?_cons_zero] at hget
        cases Option.some.inj hget
      | succ i' =>
        rw [List.get?_cons_succ] at hget
        rcases ih (e :: seen) h' i' d hget with hmem | ⟨j, hj, hg⟩
        · rcases List.mem_cons.mp hmem with rfl | hmem'
          · exact Or.inr ⟨0, Nat.succ_pos i', rfl⟩
          · exact Or.inl hmem'
        · exact Or.inr ⟨j + 1, Nat.succ_lt_succ hj, by rwa [List.get?_cons_succ]⟩
    | loadChain e =>
      have h' : (decide (e ∈ seen) && readsAfterAux seen rest) = true := h
      rw [Bool.and_eq_true] at h'
      obtain ⟨hmem, hrest⟩ := h'
      have hemem : e ∈ seen := of_decide_eq_true hmem
      cases i with
      | zero =>
        rw [List.get?_cons_zero] at hget
        cases Option.some.inj hget
        exact Or.inl hemem
      | succ i' =>
        rw [List.get?_cons_succ] at hget
        rcases ih seen hrest i' d hget with hm | ⟨j, hj, hg⟩
        · exact Or.inl hm
        · exact Or.inr ⟨j + 1, Nat.succ_lt_succ hj, by rwa [List.get?_cons_succ]⟩
    | otherCell =>
      have h' : readsAfterAux seen rest = true := h
      cases i with
      | zero =>
        rw [List.get?_cons_zero] at hget
        cases Option.some.inj hget
      | succ i' =>
        rw [List.get?_cons_succ] at hget
        rcases ih seen h' i' d hget with hm | ⟨j, hj, hg⟩
        · exact Or.inl hm
        · exact Or.inr ⟨j + 1, Nat.succ_lt_succ hj, by rwa [List.get?_cons_succ]⟩

/-- Claim C7: in each of the three analysis notebooks, taken as the
top-to-bottom sequence of its code cells, every `np.loadtxt` of a
`chain_1.txt` occurs strictly after a `sampler.sample` call writing to the
same output directory. -/
theorem c7_load_after_sample :
    (∀ i d, singlePulsarNoiseCells.get? i = some (NotebookCell.loadChain d) →
      ∃ j, j < i ∧
        singlePulsarNoiseCells.get? j = some (NotebookCell.sampleRun d)) ∧
    (∀ i d, stochasticGwbCells.get? i = some (NotebookCell.loadChain d) →
      ∃ j, j < i ∧
        stochasticGwbCells.get? j = some (NotebookCell.sampleRun d)) ∧
    (∀ i d, cwExercisesCells.get? i = some (NotebookCell.loadChain d) →
      ∃ j, j < i ∧
        cwExercisesCells.get? j = some (NotebookCell.sampleRun d)) := by
  refine ⟨?_, ?_, ?_⟩ <;> intro i d hget
  · rcases readsAfterAux_sound singlePulsarNoiseCells [] (by decide) i d hget
      with hmem | hex
    · exact absurd hmem (List.not_mem_nil d)
    · exact hex
  · rcases readsAfterAux_sound stochasticGwbCells [] (by decide) i d hget
      with hmem | hex
    · exact absurd hmem (List.not_mem_nil d)
    · exact hex
  · rcases readsAfterAux_sound cwExercisesCells [] (by decide) i d hget
      with hmem | hex
    · exact absurd hmem (List.not_mem_nil d)
    · exact hex

theorem c7_load_after_sample_witness :
    ∃ j, j < 19 ∧
      stochasticGwbCells.get? j = some (NotebookCell.sampleRun crnDir) :=
  c7_load_after_sample.2.1 19 crnDir (by decide)

theorem lexLe_total (s t : List Char) : lexLe s t = true ∨ lexLe t s = true := by
  induction s generalizing t with
  | nil => exact Or.inl rfl
  | cons a s ih =>
    cases t with
    | nil => exact Or.inr rfl
    | cons b t' =>
      rcases lt_trichotomy a b with h | h | h
      · left
        simp [lexLe, h]
      · subst h
        rcases ih t' with h1 | h1
        · left
          simp [lexLe, lt_irrefl, h1]
        · right
          simp [lexLe, lt_irrefl, h1]
      · right
        simp [lexLe, h]

theorem lexLe_trans (s t u : List Char) (h1 : lexLe s t = true)
    (h2 : lexLe t u = true) : lexLe s u = true := by
  induction s generalizing t u with
  | nil => rfl
  | cons a s ih =>
    cases t with
    | nil => exact absurd h1 (by simp [lexLe])
    | cons b t' =>
      cases u with
      | nil => exact absurd h2 (by simp [lexLe])
      | cons c u' =>
        rcases lt_trichotomy a b with hab | hab | hab
        · rcases lt_trichotomy b c with hbc | hbc | hbc
          · simp [lexLe, lt_trans hab hbc]
          · subst hbc
            simp [lexLe, hab]
          · exact absurd h2 (by simp [lexLe, hbc, lt_asymm hbc])
        · subst hab
          rcases lt_trichotomy a c with hbc | hbc | hbc
          · simp [lexLe, hbc]
          · subst hbc
            have h1' : lexLe s t' = true := by
              simpa [lexLe, lt_irrefl] using h1
            have h2' : lexLe t' u' = true := by
              simpa [lexLe, lt_irrefl] using h2
            simp [lexLe, lt_irrefl, ih t' u' h1' h2']
          · exact absurd h2 (by simp [lexLe, hbc, lt_asymm hbc])
        · exact absurd h1 (by simp [lexLe, hab, lt_asymm hab])

theorem lexLe_antisymm (s t : List Char) (h1 : lexLe s t = true)
    (h2 : lexLe t s = true) : s = t := by
  induction s generalizing t with
  | nil =>
    cases t with
    | nil => rfl
    | cons b t' => exact absurd h2 (by simp [lexLe])
  | cons a s ih =>
    cases t with
    | nil => exact absurd h1 (by simp [lexLe])
    | cons b t' =>
      rcases lt_trichotomy a b with hab | hab | hab
      · exact absurd h2 (by simp [lexLe, hab, lt_asymm hab])
      · subst hab
        have h1' : lexLe s t' = true := by simpa [lexLe, lt_irrefl] using h1
        have h2' : lexLe t' s = true := by simpa [lexLe, lt_irrefl] using h2
        rw [ih t' h1' h2']
      · exact absurd h1 (by simp [lexLe, hab, lt_asymm hab])

instance : IsTotal (List Char) LexLe := ⟨lexLe_total⟩

instance : IsTrans (List Char) LexLe := ⟨lexLe_trans⟩

instance : IsAntisymm (List Char) LexLe := ⟨lexLe_antisymm⟩

instance : IsAntisymm (List Char) StemLe :=
  ⟨fun s t h1 h2 => List.append_cancel_right (lexLe_antisymm _ _ h1 h2)⟩

theorem lexLe_stem_ext (u v : List Char) (s : List Char) :
    ∀ t : List Char, (∀ c ∈ s, c ≠ '.') → (∀ c ∈ t, c ≠ '.') →
      lexLe (s ++ '.' :: u) (t ++ '.' :: v) = true →
      lexLe (s ++ ['.']) (t ++ ['.']) = true := by
  induction s with
  | nil =>
    intro t _ ht h
    cases t with
    | nil => simp [lexLe, lt_irrefl]
    | cons b t' =>
      have hb : b ≠ '.' := ht b (List.mem_cons_self b t')
      rcases lt_trichotomy '.' b with hd | hd | hd
      · simp [lexLe, hd]
      · exact absurd hd.symm hb
      · exact absurd h (by simp [lexLe, hd, lt_asymm hd])
  | cons a s' ih =>
    intro t hs ht h
    have ha : a ≠ '.' := hs a (List.mem_cons_self a s')
    cases t with
    | nil =>
      rcases lt_trichotomy a '.' with hd | hd | hd
      · simp [lexLe, hd]
      · exact absurd hd ha
      · exact absurd h (by simp [lexLe, hd, lt_asymm hd])
    | cons b t' =>
      rcases lt_trichotomy a b with hd | hd | hd
      · simp [lexLe, hd]
      · subst hd
        have h' : lexLe (s' ++ '.' :: u) (t' ++ '.' :: v) = true := by
          simpa [lexLe, lt_irrefl] using h
        have hss := ih t' (fun c hc => hs c (List.mem_cons_of_mem a hc))
          (fun c hc => ht c (List.mem_cons_of_mem a hc)) h'
        simp [lexLe, lt_irrefl, hss]
      · exact absurd h (by simp [lexLe, hd, lt_asymm hd])

theorem fileStem_no_dot (f : List Char) : ∀ c ∈ fileStem f, c ≠ '.' := by
  intro c hc
  have h := List.mem_takeWhile_imp hc
  simpa using h

theorem fileStem_split (f : List Char) (h : '.' ∈ f) :
    ∃ u, f = fileStem f ++ '.' :: u := by
  induction f with
  | nil => cases h
  | cons c cs ih =>
    by_cases hc : c = '.'
    · subst hc
      refine ⟨cs, ?_⟩
      simp [fileStem, List.takeWhile_cons]
    · have h' : '.' ∈ cs := by
        rcases List.mem_cons.mp h with he | hm
        · exact absurd he.symm hc
        · exact hm
      obtain ⟨u, hu⟩ := ih h'
      refine ⟨u, ?_⟩
      have hstem : fileStem (c :: cs) = c :: fileStem cs := by
        simp [fileStem, List.takeWhile_cons, hc]
      rw [hstem, List.cons_append, ← hu]

theorem dot_mem_of_suffix (ext f : List Char) (h : List.isSuffixOf ext f = true)
    (hd : '.' ∈ ext) : '.' ∈ f := by
  have h' : ext.reverse <+: f.reverse := by
    simpa [List.isSuffixOf] using h
  obtain ⟨t, ht⟩ := h'
  have hf : f = t.reverse ++ ext := by
    have h2 := congrArg List.reverse ht
    simpa [List.reverse_append] using h2.symm
  rw [hf]
  exact List.mem_append.mpr (Or.inr hd)

theorem isParFile_dot (f : List Char) (h : isParFile f = true) : '.' ∈ f := by
  rw [isParFile] at h
  exact dot_mem_of_suffix ".par".data f h (by decide)

theorem isTimFile_dot (f : List Char) (h : isTimFile f = true) : '.' ∈ f := by
  rw [isTimFile] at h
  exact dot_mem_of_suffix ".tim".data f h (by decide)

theorem sorted_stems (files psrlist : List (List Char))
    (isF : List Char → Bool) (hdot : ∀ f, isF f = true → '.' ∈ f) :
    List.Sorted StemLe
      (((pySortNames (files.filter isF)).filter
        (fun x => decide (fileStem x ∈ psrlist))).map fileStem) := by
  have h1 : List.Sorted LexLe (pySortNames (files.filter isF)) :=
    List.sorted_insertionSort LexLe _
  have h2 : List.Sorted LexLe ((pySortNames (files.filter isF)).filter
      (fun x => decide (fileStem x ∈ psrlist))) := h1.filter _
  have h3 : ∀ x ∈ (pySortNames (files.filter isF)).filter
      (fun x => decide (fileStem x ∈ psrlist)), isF x = true := by
    intro x hx
    have hx1 : x ∈ pySortNames (files.filter isF) := (List.mem_filter.mp hx).1
    have hx2 : x ∈ files.filter isF :=
      ((List.perm_insertionSort LexLe (files.filter isF)).mem_iff).mp hx1
    exact (List.mem_filter.mp hx2).2
  have h4 : List.Pairwise (fun f g => StemLe (fileStem f) (fileStem g))
      ((pySortNames (files.filter isF)).filter
        (fun x => decide (fileStem x ∈ psrlist))) := by
    refine h2.imp_of_mem ?_
    intro a b ha hb hab
    obtain ⟨u, hu⟩ := fileStem_split a (hdot a (h3 a ha))
    obtain ⟨v, hv⟩ := fileStem_split b (hdot b (h3 b hb))
    refine lexLe_stem_ext u v (fileStem a) (fileStem b)
      (fileStem_no_dot a) (fileStem_no_dot b) ?_
    rw [← hu, ← hv]
    exact hab
  exact List.pairwise_map.mpr h4

theorem countP_stems (files psrlist : List (List Char))
    (isF : List Char → Bool) (s : List Char) :
    List.countP (fun x => decide (x = s))
        (((pySortNames (files.filter isF)).filter
          (fun x => decide (fileStem x ∈ psrlist))).map fileStem) =
      if s ∈ psrlist then
        files.countP (fun f => isF f && (fileStem f == s))
      else 0 := by
  rw [List.countP_map, List.countP_filter, pySortNames,
    (List.perm_insertionSort LexLe (files.filter isF)).countP_eq,
    List.countP_filter]
  by_cases hin : s ∈ psrlist
  · rw [if_pos hin]
    refine List.countP_congr ?_
    intro f _
    simp only [Function.comp_apply, Bool.and_eq_true, beq_iff_eq,
      decide_eq_true_eq]
    constructor
    · rintro ⟨⟨hfs, _⟩, hisF⟩
      exact ⟨hisF, hfs⟩
    · rintro ⟨hisF, hfs⟩
      exact ⟨⟨hfs, by rw [hfs]; exact hin⟩, hisF⟩
  · rw [if_neg hin]
    rw [List.countP_eq_zero]
    intro f _
    simp only [Function.comp_apply, Bool.and_eq_true, beq_iff_eq,
      decide_eq_true_eq, not_and]
    rintro ⟨hfs, hmem⟩
    exact absurd (hfs ▸ hmem) hin

theorem nodup_of_countP_le_one (l : List (List Char))
    (h : ∀ a, List.countP (fun x => decide (x = a)) l ≤ 1) : l.Nodup := by
  induction l with
  | nil => exact List.nodup_nil
  | cons x xs ih =>
    rw [List.nodup_cons]
    constructor
    · intro hmem
      have hx := h x
      rw [List.countP_cons_of_pos _ _ (by simp)] at hx
      have hpos : 0 < List.countP (fun y => decide (y = x)) xs :=
        List.countP_pos_iff.mpr ⟨x, hmem, by simp⟩
      omega
    · refine ih ?_
      intro a
      have hle := (List.sublist_cons_self x xs).countP_le
        (fun y => decide (y = a))
      exact le_trans hle (h a)

theorem mem_stems_iff (files psrlist : List (List Char))
    (isF : List Char → Bool) (s : List Char) :
    s ∈ (((pySortNames (files.filter isF)).filter
        (fun x => decide (fileStem x ∈ psrlist))).map fileStem) ↔
      0 < List.countP (fun x => decide (x = s))
        (((pySortNames (files.filter isF)).filter
          (fun x => decide (fileStem x ∈ psrlist))).map fileStem) := by
  rw [List.countP_pos_iff]
  constructor
  · intro hmem
    exact ⟨s, hmem, by simp⟩
  · rintro ⟨a, hmem, ha⟩
    have : a = s := by simpa using ha
    exact this ▸ hmem

/-- Counterexample to claim C6 as stated: with `psrlist = ["A"]` and a data
directory holding exactly the files `A.par`, `A.b.par`, `A.tim`, the stated
precondition holds (there is exactly one file named `A.par` and exactly one
named `A.tim`), yet the filter also keeps `A.b.par` (its stem is `A`), so
`parfiles` has two entries while `timfiles` has one. -/
theorem c6_pairing_counterexample :
    (∀ n ∈ [['A']],
      List.count (n ++ ".par".data)
        ["A.par".data, "A.b.par".data, "A.tim".data] = 1 ∧
      List.count (n ++ ".tim".data)
        ["A.par".data, "A.b.par".data, "A.tim".data] = 1) ∧
    (parfilesOf ["A.par".data, "A.b.par".data, "A.tim".data] [['A']]).length ≠
      (timfilesOf ["A.par".data, "A.b.par".data, "A.tim".data] [['A']]).length := by
  decide

/-- Claim C6, amended: if for every name in `psrlist` the data directory
holds exactly one `.par` file whose stem (base name before the first dot) is
that name and exactly one such `.tim` file — the claim as stated only
constrains the files named exactly `<name>.par`/`<name>.tim`, which the
counterexample shows is too weak — then the sorted-then-filtered lists pair
up: they have equal length and equal stem sequences, so the i-th par and tim
files handed to the `Pulsar` constructor belong to the same pulsar. -/
theorem c6_par_tim_pairing (files psrlist : List (List Char))
    (hpar : ∀ n ∈ psrlist,
      files.countP (fun f => isParFile f && (fileStem f == n)) = 1)
    (htim : ∀ n ∈ psrlist,
      files.countP (fun f => isTimFile f && (fileStem f == n)) = 1) :
    (parfilesOf files psrlist).map fileStem =
      (timfilesOf files psrlist).map fileStem ∧
    (parfilesOf files psrlist).length = (timfilesOf files psrlist).length := by
  have hps : List.Sorted StemLe ((parfilesOf files psrlist).map fileStem) :=
    sorted_stems files psrlist isParFile isParFile_dot
  have hts : List.Sorted StemLe ((timfilesOf files psrlist).map fileStem) :=
    sorted_stems files psrlist isTimFile isTimFile_dot
  have hcntp : ∀ a, List.countP (fun x => decide (x = a))
      ((parfilesOf files psrlist).map fileStem) =
      if a ∈ psrlist then 1 else 0 := by
    intro a
    rw [parfilesOf, countP_stems files psrlist isParFile a]
    by_cases hin : a ∈ psrlist
    · rw [if_pos hin, if_pos hin, hpar a hin]
    · rw [if_neg hin, if_neg hin]
  have hcntt : ∀ a, List.countP (fun x => decide (x = a))
      ((timfilesOf files psrlist).map fileStem) =
      if a ∈ psrlist then 1 else 0 := by
    intro a
    rw [timfilesOf, countP_stems files psrlist isTimFile a]
    by_cases hin : a ∈ psrlist
    · rw [if_pos hin, if_pos hin, htim a hin]
    · rw [if_neg hin, if_neg hin]
  have hndp : ((parfilesOf files psrlist).map fileStem).Nodup := by
    refine nodup_of_countP_le_one _ ?_
    intro a
    rw [hcntp a]
    split <;> omega
  have hndt : ((timfilesOf files psrlist).map fileStem).Nodup := by
    refine nodup_of_countP_le_one _ ?_
    intro a
    rw [hcntt a]
    split <;> omega
  have hperm : ((parfilesOf files psrlist).map fileStem).Perm
      ((timfilesOf files psrlist).map fileStem) := by
    rw [List.perm_ext_iff_of_nodup hndp hndt]
    intro a
    rw [parfilesOf, timfilesOf, mem_stems_iff files psrlist isParFile a,
      mem_stems_iff files psrlist isTimFile a]
    rw [← parfilesOf, ← timfilesOf, hcntp a, hcntt a]
  have heq := List.eq_of_perm_of_sorted hperm hps hts
  refine ⟨heq, ?_⟩
  have hl := congrArg List.length heq
  simpa [List.length_map] using hl

theorem c6_par_tim_pairing_witness :
    (parfilesOf ["B.par".data, "A.par".data, "A.tim".data, "B.tim".data,
        "zz.txt".data] [['A'], ['B']]).map fileStem =
      (timfilesOf ["B.par".data, "A.par".data, "A.tim".data, "B.tim".data,
        "zz.txt".data] [['A'], ['B']]).map fileStem ∧
    (parfilesOf ["B.par".data, "A.par".data, "A.tim".data, "B.tim".data,
        "zz.txt".data] [['A'], ['B']]).length =
      (timfilesOf ["B.par".data, "A.par".data, "A.tim".data, "B.tim".data,
        "zz.txt".data] [['A'], ['B']]).length :=
  c6_par_tim_pairing
    ["B.par".data, "A.par".data, "A.tim".data, "B.tim".data, "zz.txt".data]
    [['A'], ['B']] (by decide) (by decide)

end Ipta2018
